import Mathlib

/-!
Verification development for the SAM-Studio mix-job pipeline.

Shallow embedding of the pure core of the repository:
* `app/worker/tasks.py` — chunk-range construction, the chunked overlap-add
  engine, and the settings fingerprint;
* `app/core/mixing.py` — mixing primitives (peak normalization, limiter);
* `app/core/hash_cache.py` — canonical settings serialization;
* `app/api/routes_jobs.py` — the mix orchestrator / job state machine
  (validation, single-flight, cancellation, finalization guards, history).

Machine integers of Python are modelled as `Int`, numpy float samples as `ℚ`
(exact arithmetic; the spec's claims are stated "within floating-point
tolerance", which an exact-rational model witnesses), numpy arrays as either
`List ℚ` or position-indexed functions `Int → ℚ`.  File I/O, the separation
model, timestamps and thread scheduling are abstracted: stateful handlers
become explicit `ServerState`-passing functions, and the fire-and-forget
background body becomes separate finalization step functions, exactly as the
source splits them.
-/

namespace SAMStudio

/-! ## Chunk ranges — `app/worker/tasks.py`, `_build_chunk_ranges` (lines 61-75)

The Python `while` loop, with `step` and the loop bound as parameters.  The
proof argument `hstep` records that the caller's `step = max(1, ...)` is
positive, which is what makes the source loop terminate. -/

/-- Loop body of `_build_chunk_ranges`:
`while start < total_len: end = min(start + chunk_samples, total_len);
ranges.append((start, end)); if end == total_len: break; start += step`. -/
def buildChunkRangesAux (total_len chunk_samples step : Int) (hstep : 1 ≤ step)
    (start : Int) : List (Int × Int) :=
  if _h : start < total_len then
    let e := min (start + chunk_samples) total_len
    if e = total_len then [(start, e)]
    else (start, e) :: buildChunkRangesAux total_len chunk_samples step hstep (start + step)
  else []
termination_by (total_len - start).toNat
decreasing_by omega

/-- `_build_chunk_ranges(total_len, chunk_samples, overlap_samples)`:
empty for `total_len <= 0`, otherwise the loop above with
`step = max(1, chunk_samples - overlap_samples)` starting at 0. -/
def _build_chunk_ranges (total_len chunk_samples overlap_samples : Int) :
    List (Int × Int) :=
  if total_len ≤ 0 then []
  else buildChunkRangesAux total_len chunk_samples
    (max 1 (chunk_samples - overlap_samples)) (le_max_left 1 _) 0

theorem buildChunkRangesAux_eq (total_len chunk_samples step : Int) (hstep : 1 ≤ step)
    (start : Int) :
    buildChunkRangesAux total_len chunk_samples step hstep start =
      if start < total_len then
        let e := min (start + chunk_samples) total_len
        if e = total_len then [(start, e)]
        else (start, e) ::
          buildChunkRangesAux total_len chunk_samples step hstep (start + step)
      else [] := by
  rw [buildChunkRangesAux]
  simp only [dite_eq_ite]

theorem buildChunkRangesAux_of_ge (total_len chunk_samples step : Int)
    (hstep : 1 ≤ step) (start : Int) (h : total_len ≤ start) :
    buildChunkRangesAux total_len chunk_samples step hstep start = [] := by
  rw [buildChunkRangesAux_eq]
  simp [not_lt.mpr h]

theorem buildChunkRangesAux_ne_nil (total_len chunk_samples step : Int)
    (hstep : 1 ≤ step) (start : Int) (h : start < total_len) :
    buildChunkRangesAux total_len chunk_samples step hstep start ≠ [] := by
  rw [buildChunkRangesAux_eq]
  simp only [if_pos h]
  split <;> simp

/-- Every produced range `(s, e)` satisfies `start ≤ s < total_len` and
`e = min (s + chunk_samples) total_len`. -/
theorem buildChunkRangesAux_mem (total_len chunk_samples step : Int) (hstep : 1 ≤ step)
    (start : Int) :
    ∀ p ∈ buildChunkRangesAux total_len chunk_samples step hstep start,
      start ≤ p.1 ∧ p.1 < total_len ∧ p.2 = min (p.1 + chunk_samples) total_len := by
  intro p hp
  rw [buildChunkRangesAux_eq] at hp
  by_cases hlt : start < total_len
  · simp only [if_pos hlt] at hp
    by_cases he : min (start + chunk_samples) total_len = total_len
    · simp only [if_pos he, List.mem_singleton] at hp
      subst hp
      exact ⟨le_refl _, hlt, by omega⟩
    · simp only [if_neg he, List.mem_cons] at hp
      rcases hp with hp | hp
      · subst hp
        exact ⟨le_refl _, hlt, rfl⟩
      · have := buildChunkRangesAux_mem total_len chunk_samples step hstep
          (start + step) p hp
        exact ⟨by omega, this.2.1, this.2.2⟩
  · simp [if_neg hlt] at hp
termination_by (total_len - start).toNat
decreasing_by omega

/-- The head of a nonempty run of the loop starts at `start` and ends at
`min (start + chunk_samples) total_len`. -/
theorem buildChunkRangesAux_head (total_len chunk_samples step : Int) (hstep : 1 ≤ step)
    (start : Int) (p : Int × Int) (l : List (Int × Int))
    (h : buildChunkRangesAux total_len chunk_samples step hstep start = p :: l) :
    p.1 = start ∧ p.2 = min (start + chunk_samples) total_len := by
  rw [buildChunkRangesAux_eq] at h
  by_cases hlt : start < total_len
  · simp only [if_pos hlt] at h
    split at h <;>
    · simp only [List.cons.injEq] at h
      exact ⟨congrArg Prod.fst h.1.symm, congrArg Prod.snd h.1.symm⟩
  · simp [if_neg hlt] at h

/-- Coverage: if `step ≤ chunk_samples`, the ranges from `start` cover
every position of `[start, total_len)`. -/
theorem buildChunkRangesAux_cover (total_len chunk_samples step : Int) (hstep : 1 ≤ step)
    (hsc : step ≤ chunk_samples) (start : Int) :
    start < total_len → ∀ i : Int, start ≤ i → i < total_len →
      ∃ p ∈ buildChunkRangesAux total_len chunk_samples step hstep start,
        p.1 ≤ i ∧ i < p.2 := by
  intro hlt i hsi hit
  rw [buildChunkRangesAux_eq]
  simp only [if_pos hlt]
  by_cases he : min (start + chunk_samples) total_len = total_len
  · exact ⟨(start, min (start + chunk_samples) total_len), by split <;> simp, hsi, by omega⟩
  · simp only [if_neg he]
    have hend : min (start + chunk_samples) total_len = start + chunk_samples := by omega
    by_cases hi : i < start + chunk_samples
    · exact ⟨(start, min (start + chunk_samples) total_len), List.mem_cons_self _ _,
        hsi, by omega⟩
    · have hnext : start + step < total_len := by omega
      obtain ⟨p, hpmem, hp⟩ := buildChunkRangesAux_cover total_len chunk_samples step hstep
        hsc (start + step) hnext i (by omega) hit
      exact ⟨p, List.mem_cons_of_mem _ hpmem, hp⟩
termination_by (total_len - start).toNat
decreasing_by omega

/-- The last produced range ends exactly at `total_len`
(needs `step ≤ chunk_samples` so the loop cannot jump past the end). -/
theorem buildChunkRangesAux_getLast (total_len chunk_samples step : Int) (hstep : 1 ≤ step)
    (hsc : step ≤ chunk_samples) (start : Int) :
    start < total_len →
      ∃ l : Int, (buildChunkRangesAux total_len chunk_samples step hstep start).getLast? =
        some (l, total_len) := by
  intro hlt
  rw [buildChunkRangesAux_eq]
  simp only [if_pos hlt]
  by_cases he : min (start + chunk_samples) total_len = total_len
  · exact ⟨start, by simp [if_pos he, he]⟩
  · simp only [if_neg he]
    have hend : min (start + chunk_samples) total_len = start + chunk_samples := by omega
    have hnext : start + step < total_len := by omega
    obtain ⟨l, hl⟩ := buildChunkRangesAux_getLast total_len chunk_samples step hstep
      hsc (start + step) hnext
    refine ⟨l, ?_⟩
    have hne := buildChunkRangesAux_ne_nil total_len chunk_samples step hstep
      (start + step) hnext
    cases hb : buildChunkRangesAux total_len chunk_samples step hstep (start + step) with
    | nil => exact absurd hb hne
    | cons q t =>
      rw [hb] at hl
      rw [List.getLast?_cons_cons]
      exact hl
termination_by (total_len - start).toNat
decreasing_by omega

/-- Starts strictly increase along the produced range list (any inputs). -/
theorem buildChunkRangesAux_chain_start (total_len chunk_samples step : Int)
    (hstep : 1 ≤ step) (start : Int) :
    List.Chain' (fun a b : Int × Int => a.1 < b.1)
      (buildChunkRangesAux total_len chunk_samples step hstep start) := by
  rw [buildChunkRangesAux_eq]
  by_cases hlt : start < total_len
  · simp only [if_pos hlt]
    by_cases he : min (start + chunk_samples) total_len = total_len
    · rw [if_pos he]
      exact List.chain'_singleton _
    · simp only [if_neg he]
      refine List.chain'_cons'.mpr ⟨?_, buildChunkRangesAux_chain_start total_len
        chunk_samples step hstep (start + step)⟩
      intro q hq
      cases hb : buildChunkRangesAux total_len chunk_samples step hstep (start + step) with
      | nil => rw [hb] at hq; simp at hq
      | cons r t =>
        rw [hb] at hq
        have hq' : r = q := by simpa using hq
        have hh := buildChunkRangesAux_head total_len chunk_samples step hstep
          (start + step) r t hb
        show start < q.1
        rw [← hq']
        omega
  · simp [if_neg hlt]
termination_by (total_len - start).toNat
decreasing_by omega

/-- When the loop `step` equals `chunk_samples - overlap_samples`, consecutive
ranges overlap by exactly `overlap_samples`. -/
theorem buildChunkRangesAux_chain_overlap (total_len chunk_samples overlap_samples
    step : Int) (hstep : 1 ≤ step) (hso : step = chunk_samples - overlap_samples)
    (start : Int) :
    List.Chain' (fun a b : Int × Int => a.2 - b.1 = overlap_samples)
      (buildChunkRangesAux total_len chunk_samples step hstep start) := by
  rw [buildChunkRangesAux_eq]
  by_cases hlt : start < total_len
  · simp only [if_pos hlt]
    by_cases he : min (start + chunk_samples) total_len = total_len
    · rw [if_pos he]
      exact List.chain'_singleton _
    · simp only [if_neg he]
      refine List.chain'_cons'.mpr ⟨?_, buildChunkRangesAux_chain_overlap total_len
        chunk_samples overlap_samples step hstep hso (start + step)⟩
      intro q hq
      cases hb : buildChunkRangesAux total_len chunk_samples step hstep (start + step) with
      | nil => rw [hb] at hq; simp at hq
      | cons r t =>
        rw [hb] at hq
        have hq' : r = q := by simpa using hq
        have hh := buildChunkRangesAux_head total_len chunk_samples step hstep
          (start + step) r t hb
        rw [← hq']
        show min (start + chunk_samples) total_len - r.1 = overlap_samples
        omega
  · simp [if_neg hlt]
termination_by (total_len - start).toNat
decreasing_by omega

/-- The loop produces at most `total_len - start` ranges: the bounded measure
behind the source loop's termination. -/
theorem buildChunkRangesAux_length (total_len chunk_samples step : Int)
    (hstep : 1 ≤ step) (start : Int) :
    (buildChunkRangesAux total_len chunk_samples step hstep start).length ≤
      (total_len - start).toNat := by
  rw [buildChunkRangesAux_eq]
  by_cases hlt : start < total_len
  · simp only [if_pos hlt]
    by_cases he : min (start + chunk_samples) total_len = total_len
    · rw [if_pos he]
      simp only [List.length_singleton]
      omega
    · simp only [if_neg he, List.length_cons]
      have := buildChunkRangesAux_length total_len chunk_samples step hstep (start + step)
      omega
  · simp [if_neg hlt]
termination_by (total_len - start).toNat
decreasing_by omega

/-- Lines 159-160 of `run_separation_chunked`:
`overlap_samples = int(round(overlap_seconds * sr))` followed by
`overlap_samples = max(0, min(overlap_samples, chunk_samples // 2))`.
The float product-and-round is abstracted as the integer argument
`overlap_rounded`; for the positive `chunk_samples` in scope, Python's floor
division `// 2` and `Int` division agree. -/
def effective_overlap (overlap_rounded chunk_samples : Int) : Int :=
  max 0 (min overlap_rounded (chunk_samples / 2))

/-- C2: for `totalLength > 0`, `chunkSamples > 0` and
`0 ≤ overlapSamples ≤ chunkSamples/2`, the chunk ranges cover `[0, totalLength)`
exactly: a position is covered iff it is in bounds, no range end exceeds
`totalLength`, starts strictly increase, and the final range ends exactly at
`totalLength`. -/
theorem claim_C2 (total_len chunk_samples overlap_samples : Int)
    (ht : 0 < total_len) (hc : 0 < chunk_samples)
    (ho : 0 ≤ overlap_samples) (ho2 : overlap_samples ≤ chunk_samples / 2) :
    (∀ i : Int, (0 ≤ i ∧ i < total_len) ↔
      ∃ p ∈ _build_chunk_ranges total_len chunk_samples overlap_samples,
        p.1 ≤ i ∧ i < p.2) ∧
    (∀ p ∈ _build_chunk_ranges total_len chunk_samples overlap_samples,
      p.2 ≤ total_len) ∧
    List.Chain' (fun a b : Int × Int => a.1 < b.1)
      (_build_chunk_ranges total_len chunk_samples overlap_samples) ∧
    ((_build_chunk_ranges total_len chunk_samples overlap_samples).getLast?).map
      Prod.snd = some total_len := by
  have hb_eq : _build_chunk_ranges total_len chunk_samples overlap_samples =
      buildChunkRangesAux total_len chunk_samples
        (max 1 (chunk_samples - overlap_samples)) (le_max_left 1 _) 0 := by
    rw [_build_chunk_ranges, if_neg (not_le.mpr ht)]
  have hsc : max 1 (chunk_samples - overlap_samples) ≤ chunk_samples := by omega
  refine ⟨?_, ?_, ?_, ?_⟩
  · intro i
    constructor
    · rintro ⟨h0, hi⟩
      rw [hb_eq]
      exact buildChunkRangesAux_cover total_len chunk_samples _ (le_max_left 1 _)
        hsc 0 ht i h0 hi
    · rintro ⟨p, hp, hpi⟩
      rw [hb_eq] at hp
      have := buildChunkRangesAux_mem total_len chunk_samples _ (le_max_left 1 _) 0 p hp
      constructor <;> omega
  · intro p hp
    rw [hb_eq] at hp
    have := buildChunkRangesAux_mem total_len chunk_samples _ (le_max_left 1 _) 0 p hp
    omega
  · rw [hb_eq]
    exact buildChunkRangesAux_chain_start total_len chunk_samples _ (le_max_left 1 _) 0
  · rw [hb_eq]
    obtain ⟨l, hl⟩ := buildChunkRangesAux_getLast total_len chunk_samples _
      (le_max_left 1 _) hsc 0 ht
    rw [hl]
    rfl

theorem claim_C2_witness :
    (0:Int) < 5 ∧ (0:Int) < 2 ∧ (0:Int) ≤ 1 ∧ (1:Int) ≤ 2 / 2 ∧
    ((∀ i : Int, (0 ≤ i ∧ i < 5) ↔
      ∃ p ∈ _build_chunk_ranges 5 2 1, p.1 ≤ i ∧ i < p.2) ∧
    (∀ p ∈ _build_chunk_ranges 5 2 1, p.2 ≤ 5) ∧
    List.Chain' (fun a b : Int × Int => a.1 < b.1) (_build_chunk_ranges 5 2 1) ∧
    ((_build_chunk_ranges 5 2 1).getLast?).map Prod.snd = some 5) :=
  ⟨by decide, by decide, by decide, by decide,
    claim_C2 5 2 1 (by decide) (by decide) (by decide) (by decide)⟩

/-- C6: the effective overlap is `clamp(overlap_rounded, 0, chunkSamples/2)`
(clamped into the range, and the identity on values already in range), and in
the resulting range list consecutive ranges overlap by at most
`chunkSamples/2` and by at least `min(overlapSamples, length of the following
range)`. -/
theorem claim_C6 (overlap_rounded chunk_samples total_len : Int)
    (hc : 0 < chunk_samples) :
    (0 ≤ effective_overlap overlap_rounded chunk_samples ∧
     effective_overlap overlap_rounded chunk_samples ≤ chunk_samples / 2 ∧
     (0 ≤ overlap_rounded → overlap_rounded ≤ chunk_samples / 2 →
        effective_overlap overlap_rounded chunk_samples = overlap_rounded)) ∧
    List.Chain' (fun a b : Int × Int =>
        a.2 - b.1 ≤ chunk_samples / 2 ∧
        min (effective_overlap overlap_rounded chunk_samples) (b.2 - b.1) ≤ a.2 - b.1)
      (_build_chunk_ranges total_len chunk_samples
        (effective_overlap overlap_rounded chunk_samples)) := by
  set o := effective_overlap overlap_rounded chunk_samples with ho_def
  have ho0 : 0 ≤ o := le_max_left 0 _
  have ho2 : o ≤ chunk_samples / 2 := by
    rw [ho_def, effective_overlap]
    omega
  refine ⟨⟨ho0, ho2, fun h1 h2 => by rw [ho_def, effective_overlap]; omega⟩, ?_⟩
  rw [_build_chunk_ranges]
  by_cases ht : total_len ≤ 0
  · rw [if_pos ht]
    exact List.chain'_nil
  · rw [if_neg ht]
    have hso : max 1 (chunk_samples - o) = chunk_samples - o := by omega
    have hchain := buildChunkRangesAux_chain_overlap total_len chunk_samples o
      (max 1 (chunk_samples - o)) (le_max_left 1 _) hso 0
    refine hchain.imp ?_
    intro a b hab
    rw [hab]
    exact ⟨ho2, min_le_left _ _⟩

theorem claim_C6_witness :
    (0:Int) < 2 ∧
    (((0:Int) ≤ effective_overlap 1 2 ∧
      effective_overlap 1 2 ≤ 2 / 2 ∧
      ((0:Int) ≤ 1 → (1:Int) ≤ 2 / 2 → effective_overlap 1 2 = 1)) ∧
    List.Chain' (fun a b : Int × Int =>
        a.2 - b.1 ≤ 2 / 2 ∧ min (effective_overlap 1 2) (b.2 - b.1) ≤ a.2 - b.1)
      (_build_chunk_ranges 5 2 (effective_overlap 1 2))) :=
  ⟨by decide, claim_C6 1 2 5 (by decide)⟩

/-- C10: `_build_chunk_ranges` terminates on every input: non-positive totals
yield the empty list, the step is forced to at least 1 so starts strictly
increase, and the number of ranges is bounded by the total length. -/
theorem claim_C10 (total_len chunk_samples overlap_samples : Int) :
    (total_len ≤ 0 → _build_chunk_ranges total_len chunk_samples overlap_samples = []) ∧
    1 ≤ max 1 (chunk_samples - overlap_samples) ∧
    List.Chain' (fun a b : Int × Int => a.1 < b.1)
      (_build_chunk_ranges total_len chunk_samples overlap_samples) ∧
    (_build_chunk_ranges total_len chunk_samples overlap_samples).length ≤
      total_len.toNat := by
  refine ⟨fun ht => by rw [_build_chunk_ranges, if_pos ht], le_max_left 1 _, ?_, ?_⟩
  · rw [_build_chunk_ranges]
    by_cases ht : total_len ≤ 0
    · rw [if_pos ht]
      exact List.chain'_nil
    · rw [if_neg ht]
      exact buildChunkRangesAux_chain_start total_len chunk_samples _ (le_max_left 1 _) 0
  · rw [_build_chunk_ranges]
    by_cases ht : total_len ≤ 0
    · rw [if_pos ht]
      simp
    · rw [if_neg ht]
      have := buildChunkRangesAux_length total_len chunk_samples
        (max 1 (chunk_samples - overlap_samples)) (le_max_left 1 _) 0
      omega

theorem claim_C10_witness :
    _build_chunk_ranges (-1) 3 5 = [] ∧
    (_build_chunk_ranges 7 3 5).length ≤ (7:Int).toNat :=
  ⟨(claim_C10 (-1) 3 5).1 (by decide), (claim_C10 7 3 5).2.2.2⟩

/-! ## Chunked overlap-add engine — `run_separation_chunked` (lines 140-201)

The engine is modelled pointwise: the numpy accumulator arrays `output` and
`weight` become position-indexed functions `Int → ℚ`, and the slice updates
`output[start:end] += ...` become pointwise conditional additions over the
half-open range.  The per-chunk `run_separation` call (line 180) is the
abstract per-chunk transform `T`; the per-chunk cache of lines 173-184 is
modelled in its cache-off configuration (`cache_dir=None`, lines 175-178 are
skipped and `chunk_out` is always the transform's result), and the optional
`progress_callback`/`should_cancel` collaborators in their `None`
configuration, where lines 166-170 and 196-198 do not affect the output. -/

/-- numpy `np.linspace(0.0, 1.0, num=n)[j]` — the fade-in ramp.  With
`num=1` numpy returns `[0.0]` (the start point). -/
def linspace01 (n j : Int) : ℚ :=
  if n ≤ 1 then 0 else (j : ℚ) / ((n : ℚ) - 1)

/-- numpy `np.linspace(1.0, 0.0, num=n)[j]` — the fade-out ramp.  With
`num=1` numpy returns `[1.0]` (the start point). -/
def linspace10 (n j : Int) : ℚ :=
  if n ≤ 1 then 1 else ((n : ℚ) - 1 - (j : ℚ)) / ((n : ℚ) - 1)

/-- The trapezoidal window of chunk `[s, e)` at absolute position `i`
(lines 185-193): all-ones, multiplied by a linear fade-in over the first
`fade_len = min(overlap_samples, e - s)` entries when `s > 0` and the overlap
is positive, and by a linear fade-out over the last `fade_len` entries when
`e < total_len` and the overlap is positive. -/
def chunkWindow (total_len overlap_samples s e i : Int) : ℚ :=
  (if 0 < s ∧ 0 < overlap_samples ∧ i - s < min overlap_samples (e - s)
    then linspace01 (min overlap_samples (e - s)) (i - s) else 1) *
  (if e < total_len ∧ 0 < overlap_samples ∧ e - min overlap_samples (e - s) ≤ i
    then linspace10 (min overlap_samples (e - s))
      (i - (e - min overlap_samples (e - s))) else 1)

/-- Python slice `audio[s:e]` (for `0 ≤ s ≤ e ≤ len`). -/
def sliceList (audio : List ℚ) (s e : Int) : List ℚ :=
  (audio.drop s.toNat).take (e - s).toNat

/-- `chunk_out[i - start]` where `chunk_out = T(audio[start:end])`
(lines 171-184 with the cache off). -/
def chunkOutVal (T : List ℚ → List ℚ) (audio : List ℚ) (s e i : Int) : ℚ :=
  (T (sliceList audio s e)).getD (i - s).toNat 0

/-- One iteration of the placement loop (lines 194-195):
`output[start:end] += chunk_out * window; weight[start:end] += window`. -/
def placeChunk (T : List ℚ → List ℚ) (audio : List ℚ)
    (total_len overlap_samples : Int)
    (acc : (Int → ℚ) × (Int → ℚ)) (r : Int × Int) : (Int → ℚ) × (Int → ℚ) :=
  (fun i => if r.1 ≤ i ∧ i < r.2 then
      acc.1 i + chunkOutVal T audio r.1 r.2 i *
        chunkWindow total_len overlap_samples r.1 r.2 i
    else acc.1 i,
   fun i => if r.1 ≤ i ∧ i < r.2 then
      acc.2 i + chunkWindow total_len overlap_samples r.1 r.2 i
    else acc.2 i)

/-- The chunked engine's output *before* the final
`limiter(peak_normalize(...))` pass of line 200 (`run_separation_chunked`,
lines 155-199): bypass to the whole-buffer transform when
`chunk_samples ≤ 0` or `total_len ≤ chunk_samples`; otherwise clamp the
overlap (lines 159-160), build the ranges (line 161), place every windowed
chunk into the zero-initialised `output`/`weight` accumulators (lines
163-198), and divide elementwise where the weight is positive
(`np.divide(output, weight, out=output, where=weight > 0)`, line 199, which
leaves positions of non-positive weight at their accumulated value). -/
def chunkedPreNormalize (T : List ℚ → List ℚ) (audio : List ℚ)
    (chunk_samples overlap_rounded : Int) : Int → ℚ :=
  let total_len : Int := audio.length
  if chunk_samples ≤ 0 ∨ total_len ≤ chunk_samples then
    fun i => (T audio).getD i.toNat 0
  else
    let overlap_samples := effective_overlap overlap_rounded chunk_samples
    let ranges := _build_chunk_ranges total_len chunk_samples overlap_samples
    let acc := ranges.foldl (placeChunk T audio total_len overlap_samples)
      (fun _ => 0, fun _ => 0)
    fun i => if 0 < acc.2 i then acc.1 i / acc.2 i else acc.1 i

/-- Total window weight contributed at position `i` by a list of ranges. -/
def weightSum (total_len overlap_samples : Int) (R : List (Int × Int))
    (i : Int) : ℚ :=
  match R with
  | [] => 0
  | (s, e) :: rest =>
    (if s ≤ i ∧ i < e then chunkWindow total_len overlap_samples s e i
      else 0) + weightSum total_len overlap_samples rest i

/-- Total windowed sample value accumulated at position `i`. -/
def outputSum (T : List ℚ → List ℚ) (audio : List ℚ)
    (total_len overlap_samples : Int) (R : List (Int × Int)) (i : Int) : ℚ :=
  match R with
  | [] => 0
  | (s, e) :: rest =>
    (if s ≤ i ∧ i < e then
        chunkOutVal T audio s e i *
          chunkWindow total_len overlap_samples s e i
      else 0) + outputSum T audio total_len overlap_samples rest i

theorem foldl_placeChunk_snd (T : List ℚ → List ℚ) (audio : List ℚ)
    (total_len overlap_samples : Int) (R : List (Int × Int)) :
    ∀ (acc : (Int → ℚ) × (Int → ℚ)) (i : Int),
      (R.foldl (placeChunk T audio total_len overlap_samples) acc).2 i =
        acc.2 i + weightSum total_len overlap_samples R i := by
  induction R with
  | nil => intro acc i; simp [weightSum]
  | cons r rest ih =>
    intro acc i
    obtain ⟨s, e⟩ := r
    rw [List.foldl_cons, ih]
    simp only [placeChunk, weightSum]
    split <;> ring

theorem foldl_placeChunk_fst (T : List ℚ → List ℚ) (audio : List ℚ)
    (total_len overlap_samples : Int) (R : List (Int × Int)) :
    ∀ (acc : (Int → ℚ) × (Int → ℚ)) (i : Int),
      (R.foldl (placeChunk T audio total_len overlap_samples) acc).1 i =
        acc.1 i + outputSum T audio total_len overlap_samples R i := by
  induction R with
  | nil => intro acc i; simp [outputSum]
  | cons r rest ih =>
    intro acc i
    obtain ⟨s, e⟩ := r
    rw [List.foldl_cons, ih]
    simp only [placeChunk, outputSum]
    split <;> ring

theorem chunkWindow_interior (total_len overlap_samples s e i : Int)
    (h1 : ¬(0 < s ∧ 0 < overlap_samples ∧ i - s < min overlap_samples (e - s)))
    (h2 : ¬(e < total_len ∧ 0 < overlap_samples ∧
        e - min overlap_samples (e - s) ≤ i)) :
    chunkWindow total_len overlap_samples s e i = 1 := by
  rw [chunkWindow, if_neg h1, if_neg h2, one_mul]

theorem chunkWindow_fadein (total_len overlap_samples s e i : Int)
    (h1 : 0 < s ∧ 0 < overlap_samples ∧ i - s < min overlap_samples (e - s))
    (h2 : ¬(e < total_len ∧ 0 < overlap_samples ∧
        e - min overlap_samples (e - s) ≤ i)) :
    chunkWindow total_len overlap_samples s e i =
      linspace01 (min overlap_samples (e - s)) (i - s) := by
  rw [chunkWindow, if_pos h1, if_neg h2, mul_one]

theorem chunkWindow_fadeout (total_len overlap_samples s e i : Int)
    (h1 : ¬(0 < s ∧ 0 < overlap_samples ∧ i - s < min overlap_samples (e - s)))
    (h2 : e < total_len ∧ 0 < overlap_samples ∧
        e - min overlap_samples (e - s) ≤ i) :
    chunkWindow total_len overlap_samples s e i =
      linspace10 (min overlap_samples (e - s))
        (i - (e - min overlap_samples (e - s))) := by
  rw [chunkWindow, if_neg h1, if_pos h2, one_mul]

/-- Complementary fade ramps sum to one at every shared offset. -/
theorem linspace_fade_sum (n j : Int) :
    linspace01 n j + linspace10 n j = 1 := by
  rw [linspace01, linspace10]
  by_cases hn : n ≤ 1
  · rw [if_pos hn, if_pos hn]
    norm_num
  · rw [if_neg hn, if_neg hn]
    have hne : ((n : ℚ) - 1) ≠ 0 := by
      have h2 : (2 : ℚ) ≤ (n : ℚ) := by exact_mod_cast (by omega : (2:Int) ≤ n)
      linarith
    field_simp

/-- Proof-internal: length of the fade-in region of the chunk starting at
`start` (zero for the first chunk or a non-positive overlap). -/
def flIn (total_len chunk_samples overlap_samples start : Int) : Int :=
  if 0 < start ∧ 0 < overlap_samples
  then min overlap_samples (min (start + chunk_samples) total_len - start)
  else 0

/-- The weight accumulated by the ranges generated from `start`: a fade-in
ramp over the head chunk's fade-in region, exactly 1 everywhere else in
`[start + fade-in, total_len)`, and 0 outside `[start, total_len)`. -/
theorem weightSum_aux (total_len chunk_samples overlap_samples step : Int)
    (hstep : 1 ≤ step) (hc : 0 < chunk_samples) (ho : 0 ≤ overlap_samples)
    (h2 : 2 * overlap_samples ≤ chunk_samples)
    (hso : step = chunk_samples - overlap_samples)
    (start : Int) (hs0 : 0 ≤ start) (hst : start < total_len) (i : Int) :
    (start ≤ i → i < start + flIn total_len chunk_samples overlap_samples start →
      weightSum total_len overlap_samples
        (buildChunkRangesAux total_len chunk_samples step hstep start) i =
        linspace01 (flIn total_len chunk_samples overlap_samples start)
          (i - start)) ∧
    (start + flIn total_len chunk_samples overlap_samples start ≤ i →
      i < total_len →
      weightSum total_len overlap_samples
        (buildChunkRangesAux total_len chunk_samples step hstep start) i = 1) ∧
    ((i < start ∨ total_len ≤ i) →
      weightSum total_len overlap_samples
        (buildChunkRangesAux total_len chunk_samples step hstep start) i = 0) := by
  rw [buildChunkRangesAux_eq]
  simp only [if_pos hst]
  by_cases he : min (start + chunk_samples) total_len = total_len
  · rw [if_pos he, he]
    simp only [weightSum, add_zero]
    refine ⟨?_, ?_, ?_⟩
    · intro hi1 hi2
      by_cases hcond : 0 < start ∧ 0 < overlap_samples
      · have hfl : flIn total_len chunk_samples overlap_samples start =
            min overlap_samples (total_len - start) := by
          unfold flIn
          rw [if_pos hcond, he]
        obtain ⟨hsp, hop⟩ := hcond
        rw [if_pos (by omega : start ≤ i ∧ i < total_len)]
        rw [chunkWindow_fadein total_len overlap_samples start total_len i
          ⟨hsp, hop, by omega⟩ (by omega)]
        rw [hfl]
      · unfold flIn at hi2
        rw [if_neg hcond] at hi2
        omega
    · intro hi1 hi2
      have hfl0 : 0 ≤ flIn total_len chunk_samples overlap_samples start := by
        unfold flIn
        split <;> omega
      rw [if_pos (by omega : start ≤ i ∧ i < total_len)]
      by_cases hcond : 0 < start ∧ 0 < overlap_samples
      · have hfl : flIn total_len chunk_samples overlap_samples start =
            min overlap_samples (total_len - start) := by
          unfold flIn
          rw [if_pos hcond, he]
        exact chunkWindow_interior _ _ _ _ _ (by omega) (by omega)
      · exact chunkWindow_interior _ _ _ _ _ (by omega) (by omega)
    · intro hout
      rw [if_neg (by omega : ¬(start ≤ i ∧ i < total_len))]
  · rw [if_neg he]
    have he' : min (start + chunk_samples) total_len = start + chunk_samples := by omega
    rw [he']
    have h0' : 0 ≤ start + step := by omega
    have hst' : start + step < total_len := by omega
    have IH := weightSum_aux total_len chunk_samples overlap_samples step hstep hc ho h2
      hso (start + step) h0' hst' i
    have hflIn' : flIn total_len chunk_samples overlap_samples (start + step) =
        overlap_samples := by
      unfold flIn
      by_cases hcase : 0 < start + step ∧ 0 < overlap_samples
      · rw [if_pos hcase]
        omega
      · rw [if_neg hcase]
        omega
    rw [hflIn'] at IH
    simp only [weightSum]
    have hflv : (¬(0 < start ∧ 0 < overlap_samples) ∧
          flIn total_len chunk_samples overlap_samples start = 0) ∨
        (0 < start ∧ 0 < overlap_samples ∧
          flIn total_len chunk_samples overlap_samples start = overlap_samples) := by
      unfold flIn
      by_cases hcond : 0 < start ∧ 0 < overlap_samples
      · refine Or.inr ⟨hcond.1, hcond.2, ?_⟩
        rw [if_pos hcond, he']
        omega
      · exact Or.inl ⟨hcond, by rw [if_neg hcond]⟩
    refine ⟨?_, ?_, ?_⟩
    · intro hi1 hi2
      rcases hflv with ⟨hncond, hfl⟩ | ⟨hsp, hop, hfl⟩
      · omega
      · rw [if_pos (by omega : start ≤ i ∧ i < start + chunk_samples)]
        rw [chunkWindow_fadein total_len overlap_samples start
          (start + chunk_samples) i ⟨hsp, hop, by omega⟩ (by omega)]
        rw [IH.2.2 (Or.inl (by omega)), add_zero, hfl]
        have harg : min overlap_samples (start + chunk_samples - start) =
            overlap_samples := by omega
        rw [harg]
    · intro hi1 hi2
      by_cases hi3 : i < start + step
      · -- interior of the head chunk, before the next chunk starts
        rw [if_pos (by omega : start ≤ i ∧ i < start + chunk_samples)]
        rw [IH.2.2 (Or.inl (by omega)), add_zero]
        rcases hflv with ⟨hncond, hfl⟩ | ⟨hsp, hop, hfl⟩
        · exact chunkWindow_interior _ _ _ _ _ (by omega) (by omega)
        · exact chunkWindow_interior _ _ _ _ _ (by omega) (by omega)
      · by_cases hi4 : i < start + chunk_samples
        · -- overlap region shared with the next chunk: fade-out + fade-in = 1
          have hop : 0 < overlap_samples := by omega
          rw [if_pos (by omega : start ≤ i ∧ i < start + chunk_samples)]
          rw [chunkWindow_fadeout total_len overlap_samples start
            (start + chunk_samples) i (by omega) (by omega)]
          rw [IH.1 (by omega) (by omega)]
          have hmin : min overlap_samples (start + chunk_samples - start) =
              overlap_samples := by omega
          rw [hmin]
          have harg : start + chunk_samples - overlap_samples = start + step := by
            omega
          rw [harg]
          rw [add_comm]
          exact linspace_fade_sum overlap_samples (i - (start + step))
        · -- past the head chunk entirely: the tail contributes exactly 1
          rw [if_neg (by omega : ¬(start ≤ i ∧ i < start + chunk_samples))]
          rw [IH.2.1 (by omega) hi2]
          norm_num
    · intro hout
      rw [if_neg (by omega : ¬(start ≤ i ∧ i < start + chunk_samples))]
      rcases hout with h | h
      · rw [IH.2.2 (Or.inl (by omega))]
        norm_num
      · rw [IH.2.2 (Or.inr h)]
        norm_num
termination_by (total_len - start).toNat
decreasing_by omega

/-- With the identity transform, the chunk's value at an absolute in-range
position is just the input sample there. -/
theorem chunkOutVal_id (audio : List ℚ) (s e i : Int)
    (hs : 0 ≤ s) (hsi : s ≤ i) (hie : i < e) (hel : e ≤ (audio.length : Int)) :
    chunkOutVal id audio s e i = audio.getD i.toNat 0 := by
  rw [chunkOutVal, sliceList, id_eq]
  rw [List.getD_eq_getElem?_getD, List.getD_eq_getElem?_getD]
  rw [List.getElem?_take, if_pos (by omega : (i - s).toNat < (e - s).toNat)]
  rw [List.getElem?_drop]
  have harg : s.toNat + (i - s).toNat = i.toNat := by omega
  rw [harg]

/-- With the identity transform, the accumulated output is the input sample
times the accumulated weight. -/
theorem outputSum_id (audio : List ℚ) (total_len overlap_samples : Int)
    (R : List (Int × Int))
    (hR : ∀ p ∈ R, 0 ≤ p.1 ∧ p.2 ≤ (audio.length : Int)) (i : Int) :
    outputSum id audio total_len overlap_samples R i =
      audio.getD i.toNat 0 * weightSum total_len overlap_samples R i := by
  induction R with
  | nil => simp [outputSum, weightSum]
  | cons r rest ih =>
    obtain ⟨s, e⟩ := r
    simp only [outputSum, weightSum]
    rw [ih (fun p hp => hR p (List.mem_cons_of_mem _ hp))]
    have hse := hR (s, e) (List.mem_cons_self _ _)
    by_cases hin : s ≤ i ∧ i < e
    · rw [if_pos hin, if_pos hin,
        chunkOutVal_id audio s e i hse.1 hin.1 hin.2 hse.2]
      ring
    · rw [if_neg hin, if_neg hin]
      ring

/-- C3: with the identity per-chunk transform, the chunked overlap-add
engine's output before the final normalize/limit pass equals the un-chunked
input sample-for-sample (exactly, in the rational model): the trapezoidal
fade windows of consecutive chunks sum to weight 1 at every covered
position, so the weighted accumulation divided by the weight accumulator
reproduces the input. -/
theorem claim_C3 (audio : List ℚ) (chunk_samples overlap_rounded : Int)
    (hc : 0 < chunk_samples) (hlen : chunk_samples < (audio.length : Int)) :
    ∀ i : Int, 0 ≤ i → i < (audio.length : Int) →
      chunkedPreNormalize id audio chunk_samples overlap_rounded i =
        audio.getD i.toNat 0 := by
  intro i hi0 hiL
  have htot : (0:Int) < (audio.length : Int) := by omega
  have ho : 0 ≤ effective_overlap overlap_rounded chunk_samples :=
    le_max_left 0 _
  have h2 : 2 * effective_overlap overlap_rounded chunk_samples ≤ chunk_samples := by
    rw [effective_overlap]
    omega
  have hso : max 1 (chunk_samples - effective_overlap overlap_rounded chunk_samples) =
      chunk_samples - effective_overlap overlap_rounded chunk_samples := by
    omega
  simp only [chunkedPreNormalize]
  rw [if_neg (by omega : ¬(chunk_samples ≤ 0 ∨ (audio.length : Int) ≤ chunk_samples))]
  have hranges : _build_chunk_ranges (audio.length : Int) chunk_samples
      (effective_overlap overlap_rounded chunk_samples) =
      buildChunkRangesAux (audio.length : Int) chunk_samples
        (max 1 (chunk_samples - effective_overlap overlap_rounded chunk_samples))
        (le_max_left 1 _) 0 := by
    rw [_build_chunk_ranges, if_neg (by omega : ¬((audio.length : Int) ≤ 0))]
  rw [hranges]
  have hfl0 : flIn (audio.length : Int) chunk_samples
      (effective_overlap overlap_rounded chunk_samples) 0 = 0 := by
    unfold flIn
    rw [if_neg (by omega : ¬((0:Int) < 0 ∧
      0 < effective_overlap overlap_rounded chunk_samples))]
  have hW1 : weightSum (audio.length : Int)
      (effective_overlap overlap_rounded chunk_samples)
      (buildChunkRangesAux (audio.length : Int) chunk_samples
        (max 1 (chunk_samples - effective_overlap overlap_rounded chunk_samples))
        (le_max_left 1 _) 0) i = 1 := by
    refine (weightSum_aux (audio.length : Int) chunk_samples
      (effective_overlap overlap_rounded chunk_samples)
      (max 1 (chunk_samples - effective_overlap overlap_rounded chunk_samples))
      (le_max_left 1 _) hc ho h2 hso 0 le_rfl htot i).2.1 ?_ hiL
    rw [hfl0]
    omega
  have hR : ∀ p ∈ buildChunkRangesAux (audio.length : Int) chunk_samples
      (max 1 (chunk_samples - effective_overlap overlap_rounded chunk_samples))
      (le_max_left 1 _) 0, 0 ≤ p.1 ∧ p.2 ≤ (audio.length : Int) := by
    intro p hp
    have := buildChunkRangesAux_mem (audio.length : Int) chunk_samples
      (max 1 (chunk_samples - effective_overlap overlap_rounded chunk_samples))
      (le_max_left 1 _) 0 p hp
    omega
  have hsnd := foldl_placeChunk_snd id audio (audio.length : Int)
    (effective_overlap overlap_rounded chunk_samples)
    (buildChunkRangesAux (audio.length : Int) chunk_samples
      (max 1 (chunk_samples - effective_overlap overlap_rounded chunk_samples))
      (le_max_left 1 _) 0)
    (fun _ => (0:ℚ), fun _ => (0:ℚ)) i
  have hfst := foldl_placeChunk_fst id audio (audio.length : Int)
    (effective_overlap overlap_rounded chunk_samples)
    (buildChunkRangesAux (audio.length : Int) chunk_samples
      (max 1 (chunk_samples - effective_overlap overlap_rounded chunk_samples))
      (le_max_left 1 _) 0)
    (fun _ => (0:ℚ), fun _ => (0:ℚ)) i
  rw [outputSum_id audio (audio.length : Int)
    (effective_overlap overlap_rounded chunk_samples) _ hR i, hW1] at hfst
  rw [hW1] at hsnd
  simp only at hsnd hfst
  rw [hsnd, hfst]
  norm_num

theorem claim_C3_witness :
    (0:Int) < 2 ∧ (2:Int) < (([1, 2, 3, 4, 5] : List ℚ).length : Int) ∧
    (0:Int) ≤ 3 ∧ (3:Int) < (([1, 2, 3, 4, 5] : List ℚ).length : Int) ∧
    chunkedPreNormalize id [1, 2, 3, 4, 5] 2 1 3 =
      ([1, 2, 3, 4, 5] : List ℚ).getD (3:Int).toNat 0 :=
  ⟨by decide, by decide, by decide, by decide,
    claim_C3 [1, 2, 3, 4, 5] 2 1 (by decide) (by decide) 3 (by decide) (by decide)⟩

/-! ## Mixing primitives — `app/core/mixing.py` -/

/-- `np.max(np.abs(audio))` for a nonempty array and `0.0` for the empty one
(the `if audio.size else 0.0` guard of `peak_normalize`, line 23); since
every `|x| ≥ 0`, folding `max` from 0 computes exactly this. -/
def peak_abs (audio : List ℚ) : ℚ :=
  (audio.map (fun x => |x|)).foldr max 0

/-- `peak_normalize(audio, target_peak=0.95)` (`mixing.py` lines 22-27):
return silence unchanged, otherwise scale by `min(1.0, target_peak / peak)`. -/
def peak_normalize (audio : List ℚ) (target_peak : ℚ := 95 / 100) : List ℚ :=
  let peak := peak_abs audio
  if peak = 0 then audio
  else audio.map (fun x => x * min 1 (target_peak / peak))

theorem peak_abs_nonneg (audio : List ℚ) : 0 ≤ peak_abs audio := by
  induction audio with
  | nil => simp [peak_abs]
  | cons a l ih =>
    simp only [peak_abs, List.map_cons, List.foldr_cons]
    exact le_trans ih (le_max_right _ _)

theorem mem_abs_le_peak_abs (audio : List ℚ) (x : ℚ) (hx : x ∈ audio) :
    |x| ≤ peak_abs audio := by
  induction audio with
  | nil => simp at hx
  | cons a l ih =>
    simp only [peak_abs, List.map_cons, List.foldr_cons]
    rcases List.mem_cons.mp hx with h | h
    · subst h
      exact le_max_left _ _
    · exact le_trans (ih h) (le_max_right _ _)

theorem peak_abs_le (audio : List ℚ) (b : ℚ) (hb : 0 ≤ b)
    (h : ∀ x ∈ audio, |x| ≤ b) : peak_abs audio ≤ b := by
  induction audio with
  | nil => simpa [peak_abs] using hb
  | cons a l ih =>
    simp only [peak_abs, List.map_cons, List.foldr_cons]
    refine max_le (h a (List.mem_cons_self _ _)) ?_
    exact ih (fun x hx => h x (List.mem_cons_of_mem _ hx))

/-- C7: `peak_normalize` returns its input unchanged on silence (no division
by zero) and on signals already within the target peak, and it never
amplifies: every output sample is bounded by the input peak, so the output
peak is at most `max (input peak) target_peak`. -/
theorem claim_C7 (audio : List ℚ) (target_peak : ℚ) (htp : 0 ≤ target_peak) :
    (peak_abs audio = 0 → peak_normalize audio target_peak = audio) ∧
    (peak_abs audio ≤ target_peak → peak_normalize audio target_peak = audio) ∧
    (∀ y ∈ peak_normalize audio target_peak, |y| ≤ peak_abs audio) ∧
    peak_abs (peak_normalize audio target_peak) ≤
      max (peak_abs audio) target_peak := by
  have hbound : ∀ y ∈ peak_normalize audio target_peak, |y| ≤ peak_abs audio := by
    intro y hy
    simp only [peak_normalize] at hy
    by_cases hpz : peak_abs audio = 0
    · rw [if_pos hpz] at hy
      exact mem_abs_le_peak_abs audio y hy
    · rw [if_neg hpz] at hy
      obtain ⟨x, hx, rfl⟩ := List.mem_map.mp hy
      have hp : 0 < peak_abs audio :=
        lt_of_le_of_ne (peak_abs_nonneg audio) (Ne.symm hpz)
      have hs0 : 0 ≤ min 1 (target_peak / peak_abs audio) :=
        le_min (by norm_num) (div_nonneg htp hp.le)
      rw [abs_mul, abs_of_nonneg hs0]
      exact le_trans
        (mul_le_of_le_one_right (abs_nonneg x) (min_le_left 1 _))
        (mem_abs_le_peak_abs audio x hx)
  refine ⟨?_, ?_, hbound, ?_⟩
  · intro hpz
    simp only [peak_normalize]
    rw [if_pos hpz]
  · intro hle
    simp only [peak_normalize]
    by_cases hpz : peak_abs audio = 0
    · rw [if_pos hpz]
    · rw [if_neg hpz]
      have hp : 0 < peak_abs audio :=
        lt_of_le_of_ne (peak_abs_nonneg audio) (Ne.symm hpz)
      have hone : min 1 (target_peak / peak_abs audio) = 1 :=
        min_eq_left ((one_le_div hp).mpr hle)
      simp [hone]
  · exact peak_abs_le _ _ (le_max_of_le_left (peak_abs_nonneg audio))
      (fun x hx => le_trans (hbound x hx) (le_max_left _ _))

theorem claim_C7_witness :
    (0:ℚ) ≤ 95 / 100 ∧ peak_normalize [0, 0] (95 / 100) = [0, 0] :=
  ⟨by norm_num, (claim_C7 [0, 0] (95 / 100) (by norm_num)).1 (by decide)⟩

/-! ## Settings fingerprint — `app/core/hash_cache.py` and
`build_settings_fingerprint` (`tasks.py` lines 87-107)

`fingerprint_settings` is `sha256(json.dumps(settings, sort_keys=True,
separators=(",", ":")))`.  The canonical serialization — the key/value pairs
sorted by key, which is what `sort_keys=True` feeds the hash — is modelled
directly; equality of digests of the collision-resistant hash is modelled as
equality of canonical serializations (the claim's own reading: "the
canonical serialization fed to the hash is injective over these fields"). -/

/-- The JSON value shapes that occur in the settings dict of
`build_settings_fingerprint`: `None`, a float/int, a string, the list of
gains, the list of prompts. -/
inductive JVal where
  | null : JVal
  | num : ℚ → JVal
  | str : String → JVal
  | numArr : List ℚ → JVal
  | strArr : List String → JVal
deriving DecidableEq

/-- The eight parameters of `build_settings_fingerprint`
(`tasks.py` lines 87-96). -/
structure MixSettings where
  prompts : List String
  gains : List ℚ
  mode : String
  target_sr : Option Int
  preview_seconds : Option ℚ
  preview_start : Option ℚ
  chunk_seconds : Option ℚ
  chunk_overlap : Option ℚ
deriving DecidableEq

/-- An optional float serializes as `null` or a number. -/
def jopt (q : Option ℚ) : JVal :=
  match q with
  | none => JVal.null
  | some x => JVal.num x

/-- An optional int serializes as `null` or a number. -/
def joptInt (n : Option Int) : JVal :=
  match n with
  | none => JVal.null
  | some x => JVal.num (x : ℚ)

/-- The key/value pairs of the settings dict, in the construction order of
the source (`tasks.py` lines 97-106). -/
def settingsPairs (s : MixSettings) : List (String × JVal) :=
  [("gains", JVal.numArr s.gains),
   ("mode", JVal.str s.mode),
   ("prompts", JVal.strArr s.prompts),
   ("preview_seconds", jopt s.preview_seconds),
   ("preview_start", jopt s.preview_start),
   ("target_sr", joptInt s.target_sr),
   ("chunk_seconds", jopt s.chunk_seconds),
   ("chunk_overlap", jopt s.chunk_overlap)]

/-- `fingerprint_settings` (`hash_cache.py` lines 17-19): the canonical
serialization produced by `json.dumps(..., sort_keys=True)` — the pairs
sorted by key. -/
def fingerprint_settings (l : List (String × JVal)) : List (String × JVal) :=
  List.insertionSort (fun a b => a.1 ≤ b.1) l

/-- `build_settings_fingerprint` (`tasks.py` lines 87-107). -/
def build_settings_fingerprint (s : MixSettings) : List (String × JVal) :=
  fingerprint_settings (settingsPairs s)

instance : IsTotal (String × JVal) (fun a b => a.1 ≤ b.1) :=
  ⟨fun a b => le_total a.1 b.1⟩

instance : IsTrans (String × JVal) (fun a b => a.1 ≤ b.1) :=
  ⟨fun _ _ _ h1 h2 => le_trans h1 h2⟩

instance : IsAntisymm (String × JVal) (fun a b => a.1 < b.1) :=
  ⟨fun _ _ h1 h2 => (lt_asymm h1 h2).elim⟩

/-- Two key-nodup permutations of the same pairs canonicalize identically. -/
theorem fingerprint_settings_perm (l₁ l₂ : List (String × JVal))
    (hperm : l₁.Perm l₂) (hnd : (l₁.map Prod.fst).Nodup) :
    fingerprint_settings l₁ = fingerprint_settings l₂ := by
  have hstrict : ∀ m : List (String × JVal),
      List.Sorted (fun a b : String × JVal => a.1 ≤ b.1) m →
      (m.map Prod.fst).Nodup →
      List.Sorted (fun a b : String × JVal => a.1 < b.1) m := by
    intro m hs hn
    rw [List.Nodup, List.pairwise_map] at hn
    exact (hs.and hn).imp (fun h => lt_of_le_of_ne h.1 h.2)
  have p1 := List.perm_insertionSort
    (fun a b : String × JVal => a.1 ≤ b.1) l₁
  have p2 := List.perm_insertionSort
    (fun a b : String × JVal => a.1 ≤ b.1) l₂
  have hchain : (fingerprint_settings l₁).Perm (fingerprint_settings l₂) :=
    p1.trans (hperm.trans p2.symm)
  have hn1 : ((fingerprint_settings l₁).map Prod.fst).Nodup :=
    ((p1.map Prod.fst).nodup_iff).mpr hnd
  have hn2 : ((fingerprint_settings l₂).map Prod.fst).Nodup :=
    ((hchain.map Prod.fst).nodup_iff).mp hn1
  exact List.eq_of_perm_of_sorted hchain
    (hstrict _ (List.sorted_insertionSort _ _) hn1)
    (hstrict _ (List.sorted_insertionSort _ _) hn2)

theorem jopt_inj (a b : Option ℚ) (h : jopt a = jopt b) : a = b := by
  cases a <;> cases b <;> simp_all [jopt]

theorem joptInt_inj (a b : Option Int) (h : joptInt a = joptInt b) : a = b := by
  cases a <;> cases b <;> simp_all [joptInt]

/-- C5: the settings fingerprint is canonical (insensitive to the pairs'
construction order) and sensitive (the canonical serialization is injective
over prompts, gains, mode, preview window, target sample rate, chunk size
and chunk overlap, so changing any one field — including only the order of
prompts or a single gain — changes the digest). -/
theorem claim_C5 :
    (∀ (s : MixSettings) (l : List (String × JVal)),
      l.Perm (settingsPairs s) →
      fingerprint_settings l = build_settings_fingerprint s) ∧
    Function.Injective build_settings_fingerprint := by
  constructor
  · intro s l hperm
    have hkeys : ((settingsPairs s).map Prod.fst).Nodup := by
      have hk : (settingsPairs s).map Prod.fst =
          ["gains", "mode", "prompts", "preview_seconds", "preview_start",
            "target_sr", "chunk_seconds", "chunk_overlap"] := rfl
      rw [hk]
      decide
    exact fingerprint_settings_perm l (settingsPairs s) hperm
      (((hperm.map Prod.fst).nodup_iff).mpr hkeys)
  · intro s₁ s₂ h
    simp only [build_settings_fingerprint, fingerprint_settings] at h
    have hperm : (settingsPairs s₁).Perm (settingsPairs s₂) := by
      have p1 := List.perm_insertionSort
        (fun a b : String × JVal => a.1 ≤ b.1) (settingsPairs s₁)
      have p2 := List.perm_insertionSort
        (fun a b : String × JVal => a.1 ≤ b.1) (settingsPairs s₂)
      refine p1.symm.trans ?_
      rw [h]
      exact p2
    have h_gains : s₁.gains = s₂.gains := by
      have hm := hperm.mem_iff.mp
        (show ("gains", JVal.numArr s₁.gains) ∈ settingsPairs s₁ by
          simp [settingsPairs])
      simp [settingsPairs] at hm
      exact hm
    have h_mode : s₁.mode = s₂.mode := by
      have hm := hperm.mem_iff.mp
        (show ("mode", JVal.str s₁.mode) ∈ settingsPairs s₁ by
          simp [settingsPairs])
      simp [settingsPairs] at hm
      exact hm
    have h_prompts : s₁.prompts = s₂.prompts := by
      have hm := hperm.mem_iff.mp
        (show ("prompts", JVal.strArr s₁.prompts) ∈ settingsPairs s₁ by
          simp [settingsPairs])
      simp [settingsPairs] at hm
      exact hm
    have h_ps : s₁.preview_seconds = s₂.preview_seconds := by
      have hm := hperm.mem_iff.mp
        (show ("preview_seconds", jopt s₁.preview_seconds) ∈ settingsPairs s₁ by
          simp [settingsPairs])
      simp [settingsPairs] at hm
      exact jopt_inj _ _ hm
    have h_pst : s₁.preview_start = s₂.preview_start := by
      have hm := hperm.mem_iff.mp
        (show ("preview_start", jopt s₁.preview_start) ∈ settingsPairs s₁ by
          simp [settingsPairs])
      simp [settingsPairs] at hm
      exact jopt_inj _ _ hm
    have h_sr : s₁.target_sr = s₂.target_sr := by
      have hm := hperm.mem_iff.mp
        (show ("target_sr", joptInt s₁.target_sr) ∈ settingsPairs s₁ by
          simp [settingsPairs])
      simp [settingsPairs] at hm
      exact joptInt_inj _ _ hm
    have h_cs : s₁.chunk_seconds = s₂.chunk_seconds := by
      have hm := hperm.mem_iff.mp
        (show ("chunk_seconds", jopt s₁.chunk_seconds) ∈ settingsPairs s₁ by
          simp [settingsPairs])
      simp [settingsPairs] at hm
      exact jopt_inj _ _ hm
    have h_co : s₁.chunk_overlap = s₂.chunk_overlap := by
      have hm := hperm.mem_iff.mp
        (show ("chunk_overlap", jopt s₁.chunk_overlap) ∈ settingsPairs s₁ by
          simp [settingsPairs])
      simp [settingsPairs] at hm
      exact jopt_inj _ _ hm
    cases s₁
    cases s₂
    simp only [MixSettings.mk.injEq]
    exact ⟨h_prompts, h_gains, h_mode, h_sr, h_ps, h_pst, h_cs, h_co⟩

theorem claim_C5_witness :
    ((settingsPairs
        ⟨["dog"], [1], "keep", some 16000, none, none, some 30, some 2⟩).reverse).Perm
      (settingsPairs
        ⟨["dog"], [1], "keep", some 16000, none, none, some 30, some 2⟩) ∧
    fingerprint_settings
      ((settingsPairs
        ⟨["dog"], [1], "keep", some 16000, none, none, some 30, some 2⟩).reverse) =
      build_settings_fingerprint
        ⟨["dog"], [1], "keep", some 16000, none, none, some 30, some 2⟩ :=
  ⟨by decide,
    claim_C5.1 ⟨["dog"], [1], "keep", some 16000, none, none, some 30, some 2⟩
      _ (by decide)⟩

/-! ## Mix orchestrator / job state machine — `app/api/routes_jobs.py`

The module-level dicts `_jobs`, `_job_files`, `_mix_states`, `_mix_tokens`
become the fields of an explicit `ServerState`, and the handlers become pure
state-transition functions.  Timestamps (`datetime.utcnow()`) are an opaque
`now : Nat` argument; the durable `_persist_job` write and HTTP framing are
not modelled; existence of the extracted wav file is a boolean in
`JobFiles`; `uuid4` tokens are arguments.  The fire-and-forget `_run_mix`
thread body is modelled by its three finalization paths
(`finalize_success`, `finalize_cancelled`, `finalize_failure`), each run
against whatever `ServerState` the background thread then observes.
`Job` fields never touched by the mix state machine (`candidates`,
`file_name`, `duration_seconds`) are omitted; `error_code` keyword
arguments are omitted because the pydantic schemas of `schemas.py` declare
no such field and silently drop them. -/

inductive JobStatus where
  | pending
  | running
  | done
  | failed
  | cancelled
deriving DecidableEq

/-- `JobMixSummary` (`schemas.py`). -/
structure JobMixSummary where
  kind : String
  output_name : String
  preview_seconds : Option ℚ := none
  preview_start : Option ℚ := none
  updated_at : Option Nat := none
deriving DecidableEq

/-- `Job` (`schemas.py`), restricted to the fields the mix state machine
reads or writes. -/
structure Job where
  id : String
  status : JobStatus
  created_at : Nat := 0
  updated_at : Option Nat := none
  detail : Option String := none
  last_mix : Option JobMixSummary := none
  mix_history : Option (List JobMixSummary) := none
deriving DecidableEq

/-- `MixResponse` (`schemas.py`). -/
structure MixResponse where
  job_id : String
  status : JobStatus
  output_url : Option String := none
  detail : Option String := none
  progress : Option ℚ := none
  chunks_done : Option Int := none
  chunks_total : Option Int := none
  eta_seconds : Option ℚ := none
deriving DecidableEq

/-- The `_job_files[job_id]` record, reduced to the only fact `mix_job`
reads: whether the extracted wav exists. -/
structure JobFiles where
  wav_exists : Bool
deriving DecidableEq

/-- `MixRequest` (`schemas.py`). -/
structure MixRequest where
  prompts : List String
  gains : List ℚ
  mode : String := "keep"
  preview : Bool := false
  preview_seconds : Option ℚ := none
  preview_start : Option ℚ := none
  force : Bool := false
deriving DecidableEq

/-- The module-level mutable maps of `routes_jobs.py` (lines 31-41). -/
structure ServerState where
  jobs : List (String × Job)
  job_files : List (String × JobFiles)
  mix_states : List (String × MixResponse)
  mix_tokens : List (String × String)
deriving DecidableEq

/-- Python dict assignment `d[k] = v`: replace in place, or append the new
key at the end. -/
def setKey {α : Type} (m : List (String × α)) (k : String) (v : α) :
    List (String × α) :=
  match m with
  | [] => [(k, v)]
  | (k', v') :: rest =>
    if k' = k then (k, v) :: rest else (k', v') :: setKey rest k v

theorem lookup_setKey_self {α : Type} (m : List (String × α)) (k : String)
    (v : α) : List.lookup k (setKey m k v) = some v := by
  induction m with
  | nil => simp [setKey]
  | cons p rest ih =>
    obtain ⟨k', v'⟩ := p
    simp only [setKey]
    by_cases hk : k' = k
    · rw [if_pos hk]
      simp
    · rw [if_neg hk]
      have hbe : (k == k') = false := by
        simp [Ne.symm hk]
      simp only [List.lookup, hbe]
      exact ih

/-- `_set_job` (`routes_jobs.py` lines 81-84): replace the in-memory job
record (the synchronous durable `_persist_job` write is not modelled). -/
def _set_job (s : ServerState) (job : Job) : ServerState :=
  { s with jobs := setKey s.jobs job.id job }

/-- `_get_mix_state` (lines 145-147). -/
def _get_mix_state (s : ServerState) (job_id : String) : Option MixResponse :=
  List.lookup job_id s.mix_states

/-- `_get_mix_token` (lines 150-152). -/
def _get_mix_token (s : ServerState) (job_id : String) : Option String :=
  List.lookup job_id s.mix_tokens

/-- `_set_mix_state` (lines 155-182): build the new `MixResponse`, replace
the stored state wholesale, and update the token map only when a token is
passed. -/
def _set_mix_state (s : ServerState) (job_id : String) (status : JobStatus)
    (output_url detail : Option String) (token : Option String)
    (progress : Option ℚ) (chunks_done chunks_total : Option Int)
    (eta_seconds : Option ℚ) : ServerState × MixResponse :=
  let state : MixResponse :=
    { job_id := job_id, status := status, output_url := output_url,
      detail := detail, progress := progress, chunks_done := chunks_done,
      chunks_total := chunks_total, eta_seconds := eta_seconds }
  ({ s with
      mix_states := setKey s.mix_states job_id state,
      mix_tokens := match token with
        | none => s.mix_tokens
        | some t => setKey s.mix_tokens job_id t },
    state)

/-- `_should_finalize` (lines 211-218): the stored state exists, is still
RUNNING, and the stored token is still this run's token. -/
def _should_finalize (s : ServerState) (job_id token : String) : Bool :=
  match List.lookup job_id s.mix_states with
  | none => false
  | some state =>
    decide (state.status = JobStatus.running) &&
    decide (List.lookup job_id s.mix_tokens = some token)

/-- `_mix_history_limit` (lines 62-63): `max(1, int(JOB_MIX_HISTORY_LIMIT)
or 10)`; the parsed environment value is the argument. -/
def _mix_history_limit (env_limit : Option Int) : Int :=
  max 1 (env_limit.getD 10)

/-- `_append_mix_history` (lines 136-142): append the summary, keep only
the last `limit` entries, and set `last_mix`. -/
def _append_mix_history (job : Job) (summary : JobMixSummary)
    (env_limit : Option Int) : Job :=
  let history := (job.mix_history.getD []) ++ [summary]
  let limit := _mix_history_limit env_limit
  let history' := if (history.length : Int) > limit
    then history.drop (history.length - limit.toNat) else history
  { job with last_mix := some summary, mix_history := some history' }

inductive CancelResult where
  | notFound
  | ok (resp : MixResponse)
deriving DecidableEq

/-- `cancel_mix` (lines 318-340): 404 when no mix state exists; return the
state unchanged unless it is RUNNING; otherwise mark the job CANCELLED
(when the job record exists) and replace the mix state with a CANCELLED
state preserving progress/chunks/eta.  No token is passed, so the token map
is unchanged. -/
def cancel_mix (s : ServerState) (job_id : String) (now : Nat) :
    ServerState × CancelResult :=
  match List.lookup job_id s.mix_states with
  | none => (s, CancelResult.notFound)
  | some state =>
    if state.status ≠ JobStatus.running then (s, CancelResult.ok state)
    else
      let s1 := match List.lookup job_id s.jobs with
        | none => s
        | some job => _set_job s
            { job with
              status := JobStatus.cancelled, updated_at := some now }
      let res := _set_mix_state s1 job_id JobStatus.cancelled none
        (some "cancelled") none state.progress state.chunks_done
        state.chunks_total state.eta_seconds
      (res.1, CancelResult.ok res.2)

inductive MixJobOutcome where
  | httpError (statusCode : Nat) (error_code : String)
  | singleFlight (resp : MixResponse)
  | started (resp : MixResponse)
deriving DecidableEq

/-- The post-validation body of `mix_job` (lines 386-392 and 530-531): mint
a fresh token (`mix_token` stands for the `uuid4` draw), set the job
RUNNING, store the RUNNING mix state with the new token and progress 0,
spawn the background thread (`MixJobOutcome.started`), and return the
just-stored state. -/
def mix_job_start (s : ServerState) (job_id : String) (job : Job)
    (mix_token : String) (now : Nat) : ServerState × MixJobOutcome :=
  let running :=
    { job with status := JobStatus.running, updated_at := some now }
  let s1 := _set_job s running
  let res := _set_mix_state s1 job_id JobStatus.running none none
    (some mix_token) (some 0) none none none
  (res.1, MixJobOutcome.started ((_get_mix_state res.1 job_id).getD
    { job_id := job_id, status := JobStatus.running }))

/-- `mix_job` (lines 343-392): the four synchronous validations in source
order, then the single-flight check, then the start path.  (The local
preview-window resolution of lines 371-380 has no state effect and is
consumed only by the thread body, so it is not part of this transition.) -/
def mix_job (s : ServerState) (job_id : String) (payload : MixRequest)
    (mix_token : String) (now : Nat) : ServerState × MixJobOutcome :=
  match List.lookup job_id s.jobs with
  | none => (s, MixJobOutcome.httpError 404 "JOB_NOT_FOUND")
  | some job =>
    let wav_ok := match List.lookup job_id s.job_files with
      | none => false
      | some fp => fp.wav_exists
    if wav_ok = false then (s, MixJobOutcome.httpError 404 "INPUT_NOT_FOUND")
    else if payload.prompts = [] then
      (s, MixJobOutcome.httpError 400 "PROMPTS_REQUIRED")
    else if payload.prompts.length ≠ payload.gains.length then
      (s, MixJobOutcome.httpError 400 "PROMPT_GAIN_MISMATCH")
    else
      match List.lookup job_id s.mix_states with
      | some existing =>
        if existing.status = JobStatus.running ∧ payload.force = false then
          (s, MixJobOutcome.singleFlight existing)
        else mix_job_start s job_id job mix_token now
      | none => mix_job_start s job_id job mix_token now

/-- Python float truthiness of an optional float
(`"preview" if preview_seconds else "full"`). -/
def truthyQ (q : Option ℚ) : Bool :=
  match q with
  | none => false
  | some x => decide (x ≠ 0)

/-- Python int truthiness of an optional int
(`0.0 if state and state.chunks_total else None`). -/
def truthyInt (n : Option Int) : Bool :=
  match n with
  | none => false
  | some x => decide (x ≠ 0)

/-- The success finalization of `_run_mix` (lines 450-479): a no-op unless
`_should_finalize` holds for this run's token; otherwise append the mix
summary to the bounded history, set the job DONE, and store a DONE mix
state with progress 1, carrying over the last observed chunk counters. -/
def finalize_success (s : ServerState)
    (job_id mix_token output_filename : String) (running : Job)
    (preview_seconds : Option ℚ) (preview_start : ℚ)
    (env_limit : Option Int) (now : Nat) : ServerState :=
  if _should_finalize s job_id mix_token = false then s
  else
    let mix_kind := if truthyQ preview_seconds then "preview" else "full"
    let mix_summary : JobMixSummary :=
      { kind := mix_kind, output_name := output_filename,
        preview_seconds := if mix_kind = "preview" then preview_seconds
          else none,
        preview_start := if mix_kind = "preview" then some preview_start
          else none,
        updated_at := some now }
    let done := _append_mix_history
      { running with status := JobStatus.done, updated_at := some now }
      mix_summary env_limit
    let s1 := _set_job s done
    let st := _get_mix_state s1 job_id
    (_set_mix_state s1 job_id JobStatus.done
      (some ("/assets/" ++ job_id ++ "/output?name=" ++ output_filename))
      none (some mix_token) (some 1)
      (st.bind MixResponse.chunks_done) (st.bind MixResponse.chunks_total)
      (if truthyInt (st.bind MixResponse.chunks_total) then some 0
        else none)).1

/-- The cancelled finalization (lines 480-500): a no-op when the mix state
is gone or already CANCELLED (avoiding a double transition); otherwise set
job and mix state CANCELLED, preserving the observability fields. -/
def finalize_cancelled (s : ServerState) (job_id mix_token : String)
    (running : Job) (now : Nat) : ServerState :=
  match _get_mix_state s job_id with
  | none => s
  | some state =>
    if state.status = JobStatus.cancelled then s
    else
      let s1 := _set_job s
        { running with
          status := JobStatus.cancelled, updated_at := some now }
      (_set_mix_state s1 job_id JobStatus.cancelled none (some "cancelled")
        (some mix_token) state.progress state.chunks_done state.chunks_total
        state.eta_seconds).1

/-- The failure finalization (lines 501-528): a no-op unless
`_should_finalize` holds; otherwise set the job FAILED with the classified
detail and mirror it into the mix state. -/
def finalize_failure (s : ServerState) (job_id mix_token : String)
    (running : Job) (detail : String) (now : Nat) : ServerState :=
  if _should_finalize s job_id mix_token = false then s
  else
    let failed :=
      { running with
        status := JobStatus.failed, updated_at := some now,
        detail := some detail }
    let s1 := _set_job s failed
    (_set_mix_state s1 job_id JobStatus.failed none failed.detail
      (some mix_token) none none none none).1

theorem getLast?_drop_of_lt {α : Type} (l : List α) (n : Nat)
    (h : n < l.length) : (l.drop n).getLast? = l.getLast? := by
  conv_rhs => rw [← List.take_append_drop n l]
  rw [List.getLast?_append]
  have hne : l.drop n ≠ [] := by
    intro hnil
    have := List.drop_eq_nil_iff.mp hnil
    omega
  cases hd : (l.drop n).getLast? with
  | none =>
    exact absurd (by simpa using hd) hne
  | some y =>
    simp [Option.or]

/-- C9: every `_append_mix_history` keeps the history within the configured
limit, retains exactly a suffix (the most recent entries, oldest evicted
first, order preserved), and leaves the appended summary as both `last_mix`
and the final history element. -/
theorem claim_C9 (job : Job) (summary : JobMixSummary)
    (env_limit : Option Int) :
    ∃ h' : List JobMixSummary,
      (_append_mix_history job summary env_limit).mix_history = some h' ∧
      (h'.length : Int) ≤ _mix_history_limit env_limit ∧
      h' <:+ (job.mix_history.getD [] ++ [summary]) ∧
      (_append_mix_history job summary env_limit).last_mix = some summary ∧
      h'.getLast? = some summary := by
  have hlim : 1 ≤ _mix_history_limit env_limit := le_max_left 1 _
  simp only [_append_mix_history]
  set history := job.mix_history.getD [] ++ [summary] with hh
  have hlen_pos : 0 < history.length := by
    rw [hh]
    simp
  have hlast : history.getLast? = some summary := by
    rw [hh]
    simp [List.getLast?_concat]
  by_cases hgt : (history.length : Int) > _mix_history_limit env_limit
  · rw [if_pos hgt]
    refine ⟨_, rfl, ?_, List.drop_suffix _ _, trivial, ?_⟩
    · rw [List.length_drop]
      omega
    · rw [getLast?_drop_of_lt history _ (by omega)]
      exact hlast
  · rw [if_neg hgt]
    exact ⟨history, rfl, by omega, List.suffix_refl _, trivial, hlast⟩

/-- C1: finalization takes effect only while the stored mix state is still
RUNNING under this very run's token — a stored CANCELLED state, and a
replaced token, each force `_should_finalize` to fail, and a failed
`_should_finalize` makes both the success and the failure finalization the
identity on the server state — while `cancel_mix` of a RUNNING mix stores a
CANCELLED mix state immediately, independent of the background execution. -/
theorem claim_C1 (s : ServerState) (job_id mix_token output_filename : String)
    (running : Job) (preview_seconds : Option ℚ) (preview_start : ℚ)
    (env_limit : Option Int) (detail : String) (now : Nat) :
    (∀ st, List.lookup job_id s.mix_states = some st →
      st.status = JobStatus.cancelled →
      _should_finalize s job_id mix_token = false) ∧
    (List.lookup job_id s.mix_tokens ≠ some mix_token →
      _should_finalize s job_id mix_token = false) ∧
    (_should_finalize s job_id mix_token = false →
      finalize_success s job_id mix_token output_filename running
        preview_seconds preview_start env_limit now = s ∧
      finalize_failure s job_id mix_token running detail now = s) ∧
    (∀ st, List.lookup job_id s.mix_states = some st →
      st.status = JobStatus.running →
      ∃ st', List.lookup job_id ((cancel_mix s job_id now).1).mix_states =
          some st' ∧ st'.status = JobStatus.cancelled) := by
  refine ⟨?_, ?_, ?_, ?_⟩
  · intro st h1 h2
    simp [_should_finalize, h1, h2]
  · intro h
    cases hst : List.lookup job_id s.mix_states with
    | none => simp [_should_finalize, hst]
    | some st => simp [_should_finalize, hst, h]
  · intro h
    constructor
    · rw [finalize_success, if_pos h]
    · rw [finalize_failure, if_pos h]
  · intro st h1 h2
    simp only [cancel_mix, h1]
    rw [if_neg (by simp [h2])]
    cases hj : List.lookup job_id s.jobs with
    | none =>
      exact ⟨_, by simp only [_set_mix_state, _set_job]
                   exact lookup_setKey_self _ _ _, rfl⟩
    | some job =>
      exact ⟨_, by simp only [_set_mix_state, _set_job]
                   exact lookup_setKey_self _ _ _, rfl⟩

theorem claim_C1_witness :
    (_should_finalize
      { jobs := [], job_files := [],
        mix_states := [("j", { job_id := "j", status := JobStatus.cancelled })],
        mix_tokens := [("j", "t")] } "j" "t" = false) ∧
    finalize_success
      { jobs := [], job_files := [],
        mix_states := [("j", { job_id := "j", status := JobStatus.cancelled })],
        mix_tokens := [("j", "t")] } "j" "t" "out.wav"
      { id := "j", status := JobStatus.running } none 0 none 7 =
      { jobs := [], job_files := [],
        mix_states := [("j", { job_id := "j", status := JobStatus.cancelled })],
        mix_tokens := [("j", "t")] } ∧
    finalize_failure
      { jobs := [], job_files := [],
        mix_states := [("j", { job_id := "j", status := JobStatus.cancelled })],
        mix_tokens := [("j", "t")] } "j" "t"
      { id := "j", status := JobStatus.running } "boom" 7 =
      { jobs := [], job_files := [],
        mix_states := [("j", { job_id := "j", status := JobStatus.cancelled })],
        mix_tokens := [("j", "t")] } := by
  refine ⟨by decide, ?_, ?_⟩
  · exact ((claim_C1
      { jobs := [], job_files := [],
        mix_states := [("j", { job_id := "j", status := JobStatus.cancelled })],
        mix_tokens := [("j", "t")] } "j" "t" "out.wav"
      { id := "j", status := JobStatus.running } none 0 none "boom" 7).2.2.1
      (by decide)).1
  · exact ((claim_C1
      { jobs := [], job_files := [],
        mix_states := [("j", { job_id := "j", status := JobStatus.cancelled })],
        mix_tokens := [("j", "t")] } "j" "t" "out.wav"
      { id := "j", status := JobStatus.running } none 0 none "boom" 7).2.2.1
      (by decide)).2

/-- C4: while a RUNNING mix state exists for the job and `force` is not
set, a valid `mix_job` call is single-flight: it returns the existing
RUNNING state unchanged, mutates nothing, and starts no background
execution. -/
theorem claim_C4 (s : ServerState) (job_id : String) (payload : MixRequest)
    (mix_token : String) (now : Nat) (job : Job) (fp : JobFiles)
    (ex : MixResponse)
    (hjob : List.lookup job_id s.jobs = some job)
    (hfp : List.lookup job_id s.job_files = some fp)
    (hwav : fp.wav_exists = true)
    (hp : ¬payload.prompts = [])
    (hlen : payload.prompts.length = payload.gains.length)
    (hex : List.lookup job_id s.mix_states = some ex)
    (hrun : ex.status = JobStatus.running)
    (hforce : payload.force = false) :
    mix_job s job_id payload mix_token now =
      (s, MixJobOutcome.singleFlight ex) := by
  simp only [mix_job, hjob, hfp]
  rw [if_neg (by simp [hwav]), if_neg hp, if_neg (by omega)]
  simp only [hex]
  rw [if_pos ⟨hrun, hforce⟩]

theorem claim_C4_witness :
    mix_job
      { jobs := [("j", { id := "j", status := JobStatus.running })],
        job_files := [("j", { wav_exists := true })],
        mix_states := [("j", { job_id := "j", status := JobStatus.running })],
        mix_tokens := [("j", "t")] } "j"
      { prompts := ["dog"], gains := [1] } "t2" 9 =
      ({ jobs := [("j", { id := "j", status := JobStatus.running })],
         job_files := [("j", { wav_exists := true })],
         mix_states := [("j", { job_id := "j", status := JobStatus.running })],
         mix_tokens := [("j", "t")] },
       MixJobOutcome.singleFlight
        { job_id := "j", status := JobStatus.running }) :=
  claim_C4 _ "j" { prompts := ["dog"], gains := [1] } "t2" 9
    { id := "j", status := JobStatus.running } { wav_exists := true }
    { job_id := "j", status := JobStatus.running }
    (by decide) (by decide) (by decide) (by decide) (by decide)
    (by decide) (by decide) (by decide)

/-- C8: each of the four request validations of `mix_job` rejects
synchronously with its error code and returns the server state exactly as
it was — no job, mix state or token mutation, and no background start. -/
theorem claim_C8 (s : ServerState) (job_id : String) (payload : MixRequest)
    (mix_token : String) (now : Nat) :
    (List.lookup job_id s.jobs = none →
      mix_job s job_id payload mix_token now =
        (s, MixJobOutcome.httpError 404 "JOB_NOT_FOUND")) ∧
    (∀ job, List.lookup job_id s.jobs = some job →
      (List.lookup job_id s.job_files = none ∨
        ∃ fp, List.lookup job_id s.job_files = some fp ∧
          fp.wav_exists = false) →
      mix_job s job_id payload mix_token now =
        (s, MixJobOutcome.httpError 404 "INPUT_NOT_FOUND")) ∧
    (∀ job fp, List.lookup job_id s.jobs = some job →
      List.lookup job_id s.job_files = some fp → fp.wav_exists = true →
      payload.prompts = [] →
      mix_job s job_id payload mix_token now =
        (s, MixJobOutcome.httpError 400 "PROMPTS_REQUIRED")) ∧
    (∀ job fp, List.lookup job_id s.jobs = some job →
      List.lookup job_id s.job_files = some fp → fp.wav_exists = true →
      ¬payload.prompts = [] →
      payload.prompts.length ≠ payload.gains.length →
      mix_job s job_id payload mix_token now =
        (s, MixJobOutcome.httpError 400 "PROMPT_GAIN_MISMATCH")) := by
  refine ⟨?_, ?_, ?_, ?_⟩
  · intro h
    simp [mix_job, h]
  · intro job hjob hwav
    simp only [mix_job, hjob]
    rcases hwav with h | ⟨fp, hfp, hfalse⟩
    · rw [h]
      rw [if_pos rfl]
    · rw [hfp]
      rw [if_pos hfalse]
  · intro job fp hjob hfp hwav hp
    simp only [mix_job, hjob, hfp]
    rw [if_neg (by simp [hwav]), if_pos hp]
  · intro job fp hjob hfp hwav hp hlen
    simp only [mix_job, hjob, hfp]
    rw [if_neg (by simp [hwav]), if_neg hp, if_pos hlen]

theorem claim_C8_witness :
    mix_job
      { jobs := [("j", { id := "j", status := JobStatus.done })],
        job_files := [("j", { wav_exists := true })],
        mix_states := [], mix_tokens := [] } "j"
      { prompts := [], gains := [] } "t" 3 =
      ({ jobs := [("j", { id := "j", status := JobStatus.done })],
         job_files := [("j", { wav_exists := true })],
         mix_states := [], mix_tokens := [] },
       MixJobOutcome.httpError 400 "PROMPTS_REQUIRED") :=
  (claim_C8
      { jobs := [("j", { id := "j", status := JobStatus.done })],
        job_files := [("j", { wav_exists := true })],
        mix_states := [], mix_tokens := [] } "j"
      { prompts := [], gains := [] } "t" 3).2.2.1
    { id := "j", status := JobStatus.done } { wav_exists := true }
    (by decide) (by decide) (by decide) (by decide)

end SAMStudio
